import Mathlib

/-!
# Fixture queues of mockoidc (queue.go)

A shallow embedding of the four queue components of `queue.go`:
`UserQueue`, `SpecialUserQueue`, `CodeQueue` and `ErrorQueue`.

Modelling conventions.

* A Go slice is a `List`; `append(s, x)` is `s ++ [x]`, `s[0], s[1:]` on a
  slice of positive length is the head and the tail.  A nil slice and an
  empty slice both have length `0` and are both the list `[]`.
* A method with a pointer receiver takes the receiver state and returns the
  new receiver state next to its Go result.
* The embedded `sync.Mutex` is taken and released around every method body;
  the embedding is sequential and has no field for it.
* `User` and `DefaultUser()` are declared outside `queue.go`; the type is a
  parameter `User` and the fixture a parameter `DefaultUser : User`.
* `randomNonce` is declared outside `queue.go`; it is a parameter: a
  transition on a generator state `σ` that, asked for a length, yields the
  Go result pair `(string, error)`.
* A Go `map[string][]User` is either nil (`none`) or an association list
  with distinct keys.  Reading a nil map behaves as reading an empty map,
  writing to a nil map is a run-time panic (`none` as result of `Push`).
  The order in which `range` visits the keys is not fixed by Go; the
  embedding of the loop takes the order of the visit as an argument.
* `SpecialUserQueue` keeps, for every key, the elements of its slice.  That
  is what the code does to the sequence of the key it is called on, and to
  every key where each key has a backing array of its own, as on every
  mapping that Push and Pop build from an empty map
  (`specialUserQueueMem_simulation`).  `SpecialUserQueueMem` keeps the slice
  headers and the backing arrays: a mapping set through the exported field
  `Queue` may hold slices of one backing array under two keys, and there
  `append` in `Push` writes into the sequence of the other key.
-/

namespace Mockoidc

/-! ## Data model -/

/-- ServerError is a tester-defined error for a handler to return. -/
structure ServerError where
  Code : Int
  Error : String
  Description : String
  deriving DecidableEq, Repr

/-- UserQueue manages the queue of Users returned for each call to the
authorize endpoint. -/
structure UserQueue (User : Type) where
  Queue : List User
  deriving DecidableEq, Repr

/-- CodeQueue manages the queue of codes returned for each call to the
authorize endpoint. -/
structure CodeQueue where
  Queue : List String
  deriving DecidableEq, Repr

/-- ErrorQueue manages the queue of errors for handlers to return; an element
is a pointer to a ServerError, which may be nil (`none`). -/
structure ErrorQueue where
  Queue : List (Option ServerError)
  deriving DecidableEq, Repr

/-- An initialised Go map from string keys to slices of users. -/
abbrev UserMap (User : Type) := AList (fun _ : String => List User)

/-- SpecialUserQueue keeps one slice of users per identity provider key; the
map is `none` when it is the nil map of the zero value. -/
structure SpecialUserQueue (User : Type) where
  Queue : Option (UserMap User)

/-! ## UserQueue -/

/-- Go: `q.Queue = append(q.Queue, user)`. -/
def UserQueue.Push {User : Type} (q : UserQueue User) (user : User) : UserQueue User :=
  { Queue := q.Queue ++ [user] }

/-- Go: if `len(q.Queue) == 0` return `DefaultUser()`; otherwise
`user, q.Queue = q.Queue[0], q.Queue[1:]` and return `user`.  The length is
`0` exactly for the list `[]`. -/
def UserQueue.Pop {User : Type} (DefaultUser : User) (q : UserQueue User) :
    User × UserQueue User :=
  match q.Queue with
  | [] => (DefaultUser, q)
  | user :: rest => (user, { Queue := rest })

/-- Calls `Push` once for every element of `us`, in order. -/
def UserQueue.pushAll {User : Type} (q : UserQueue User) (us : List User) : UserQueue User :=
  us.foldl UserQueue.Push q

/-- Calls `Pop` `n` times in a row; the results in call order, and the final queue. -/
def UserQueue.popN {User : Type} (DefaultUser : User) :
    Nat → UserQueue User → List User × UserQueue User
  | 0, q => ([], q)
  | n + 1, q =>
    let r := UserQueue.Pop DefaultUser q
    let rs := UserQueue.popN DefaultUser n r.2
    (r.1 :: rs.1, rs.2)

/-- One call on a UserQueue. -/
inductive UserOp (User : Type) where
  | push (user : User) : UserOp User
  | pop : UserOp User
  deriving DecidableEq, Repr

/-- What a run of calls on a UserQueue leaves behind: the final queue, the
arguments of the `Push` calls in call order, and the results of those `Pop`
calls that found the queue non-empty, in call order. -/
structure UserRun (User : Type) where
  final : UserQueue User
  pushed : List User
  served : List User

/-- Runs the calls `ops` in order from the queue `q`. -/
def UserQueue.run {User : Type} (DefaultUser : User) :
    List (UserOp User) → UserQueue User → UserRun User
  | [], q => { final := q, pushed := [], served := [] }
  | UserOp.push user :: ops, q =>
    let r := UserQueue.run DefaultUser ops (q.Push user)
    { r with pushed := user :: r.pushed }
  | UserOp.pop :: ops, q =>
    let p := UserQueue.Pop DefaultUser q
    let r := UserQueue.run DefaultUser ops p.2
    match q.Queue with
    | [] => r
    | _ :: _ => { r with served := p.1 :: r.served }

/-! ## SpecialUserQueue -/

/-- The keys of the map; a nil map has none. -/
def SpecialUserQueue.keys {User : Type} (q : SpecialUserQueue User) : List String :=
  match q.Queue with
  | none => []
  | some m => m.keys

/-- Go: `v, ok := q.Queue[idp]`, as `some v` when `ok` and `none` otherwise. -/
def SpecialUserQueue.entry {User : Type} (q : SpecialUserQueue User) (idp : String) :
    Option (List User) :=
  match q.Queue with
  | none => none
  | some m => m.lookup idp

/-- Go: the value of the expression `q.Queue[idp]`, the nil slice when the
key has no entry. -/
def SpecialUserQueue.index {User : Type} (q : SpecialUserQueue User) (idp : String) :
    List User :=
  (q.entry idp).getD []

/-- Go: `q.Queue[idp] = append(q.Queue[idp], user)`; the assignment panics
when the map is nil, which is the result `none`.  The sequence of `idp`
becomes its elements followed by `user`, whatever the capacity of its slice;
the sequences of the other keys are kept, which is what the code does where
they do not share the backing array of `idp` (`SpecialUserQueueMem.Push` has
the backing arrays). -/
def SpecialUserQueue.Push {User : Type} (q : SpecialUserQueue User) (idp : String)
    (user : User) : Option (SpecialUserQueue User) :=
  match q.Queue with
  | none => none
  | some m => some { Queue := some (m.insert idp (q.index idp ++ [user])) }

/-- Go: if `idp` has an entry (`_, ok := q.Queue[idp]` with `ok`), then if
`len(q.Queue[idp]) == 0` return `DefaultUser()`, else
`user, q.Queue[idp] = q.Queue[idp][0], q.Queue[idp][1:]` and return `user`;
if `idp` has no entry return `DefaultUser()`.  A nil map has no entry, and the
assignment is reached only with an entry, so on a map that is not nil. -/
def SpecialUserQueue.Pop {User : Type} (DefaultUser : User) (q : SpecialUserQueue User)
    (idp : String) : User × SpecialUserQueue User :=
  match q.Queue with
  | none => (DefaultUser, q)
  | some m =>
    match m.lookup idp with
    | some [] => (DefaultUser, q)
    | some (user :: rest) => (user, { Queue := some (m.insert idp rest) })
    | none => (DefaultUser, q)

/-- Go: `returnString := []string{}`, then for every key `idp` that `range`
visits, `if len(q.Queue[idp]) == 0 { returnString = append(returnString, idp) }`.
The argument `order` is the order in which `range` visits the keys.  The
receiver is returned as it is, the body has no assignment to it. -/
def SpecialUserQueue.GetIdpsExhaustedWithUsers {User : Type} (q : SpecialUserQueue User)
    (order : List String) : List String × SpecialUserQueue User :=
  (order.foldl
      (fun returnString idp =>
        if (q.index idp).length = 0 then returnString ++ [idp] else returnString)
      [],
    q)

/-- A visit of `range` over the map: every key once, in some order. -/
def SpecialUserQueue.IsRangeOrder {User : Type} (q : SpecialUserQueue User)
    (order : List String) : Prop :=
  order.Perm q.keys

/-- One call on a SpecialUserQueue. -/
inductive SpecialOp (User : Type) where
  | push (idp : String) (user : User) : SpecialOp User
  | pop (idp : String) : SpecialOp User
  deriving DecidableEq, Repr

/-- What a run of calls on a SpecialUserQueue leaves behind: the final queue
and, in call order, the key and result of every `Pop` call that removed the
head of a sequence. -/
structure SpecialRun (User : Type) where
  final : SpecialUserQueue User
  served : List (String × User)

/-- Runs the calls `ops` in order from `q`; `none` when a `Push` panics. -/
def SpecialUserQueue.run {User : Type} (DefaultUser : User) :
    List (SpecialOp User) → SpecialUserQueue User → Option (SpecialRun User)
  | [], q => some { final := q, served := [] }
  | SpecialOp.push idp user :: ops, q =>
    match q.Push idp user with
    | none => none
    | some q1 => SpecialUserQueue.run DefaultUser ops q1
  | SpecialOp.pop idp :: ops, q =>
    let p := SpecialUserQueue.Pop DefaultUser q idp
    match SpecialUserQueue.run DefaultUser ops p.2 with
    | none => none
    | some r =>
      match q.index idp with
      | [] => some r
      | _ :: _ => some { r with served := (idp, p.1) :: r.served }

/-- The users given to the calls `Push(k, _)` of a history, in call order. -/
def SpecialOp.pushedTo {User : Type} (k : String) (ops : List (SpecialOp User)) : List User :=
  ops.filterMap (fun op =>
    match op with
    | SpecialOp.push idp user => if idp = k then some user else none
    | SpecialOp.pop _ => none)

/-- The users that the calls `Pop(k)` of a run removed from the sequence of
`k`, in call order. -/
def SpecialRun.servedTo {User : Type} (k : String) (r : SpecialRun User) : List User :=
  r.served.filterMap (fun e => if e.1 = k then some e.2 else none)

/-! ## CodeQueue -/

/-- The external `randomNonce`: from a state of the generator and the length
asked for, the Go result pair (the string, and the error or nil) and the next
state of the generator. -/
abbrev NonceGen (ε σ : Type) := σ → Nat → (String × Option ε) × σ

/-- A generator that never fails and returns a string of the length asked for. -/
def NonceGen.Healthy {ε σ : Type} (randomNonce : NonceGen ε σ) : Prop :=
  ∀ g n, (randomNonce g n).1.2 = none ∧ (randomNonce g n).1.1.length = n

/-- Go: `q.Queue = append(q.Queue, code)`. -/
def CodeQueue.Push (q : CodeQueue) (code : String) : CodeQueue :=
  { Queue := q.Queue ++ [code] }

/-- Go: if `len(q.Queue) == 0` then `code, err := randomNonce(24)`, and
`return "", err` if `err != nil`, else `return code, nil`; otherwise
`code, q.Queue = q.Queue[0], q.Queue[1:]` and `return code, nil`.  The result
is the Go result pair, the queue and the state of the generator. -/
def CodeQueue.Pop {ε σ : Type} (randomNonce : NonceGen ε σ) (q : CodeQueue) (g : σ) :
    (String × Option ε) × CodeQueue × σ :=
  match q.Queue with
  | [] =>
    let r := randomNonce g 24
    match r.1.2 with
    | some err => (("", some err), q, r.2)
    | none => ((r.1.1, none), q, r.2)
  | code :: rest => ((code, none), { Queue := rest }, g)

/-- Calls `Push` once for every element of `cs`, in order. -/
def CodeQueue.pushAll (q : CodeQueue) (cs : List String) : CodeQueue :=
  cs.foldl CodeQueue.Push q

/-- Calls `Pop` `n` times in a row; the results in call order, the final queue
and the final state of the generator. -/
def CodeQueue.popN {ε σ : Type} (randomNonce : NonceGen ε σ) :
    Nat → CodeQueue → σ → List (String × Option ε) × CodeQueue × σ
  | 0, q, g => ([], q, g)
  | n + 1, q, g =>
    let r := CodeQueue.Pop randomNonce q g
    let rs := CodeQueue.popN randomNonce n r.2.1 r.2.2
    (r.1 :: rs.1, rs.2)

/-! ## ErrorQueue -/

/-- Go: `q.Queue = append(q.Queue, se)`. -/
def ErrorQueue.Push (q : ErrorQueue) (se : Option ServerError) : ErrorQueue :=
  { Queue := q.Queue ++ [se] }

/-- Go: if `len(q.Queue) == 0` return nil; otherwise
`se, q.Queue = q.Queue[0], q.Queue[1:]` and return `se`. -/
def ErrorQueue.Pop (q : ErrorQueue) : Option ServerError × ErrorQueue :=
  match q.Queue with
  | [] => (none, q)
  | se :: rest => (se, { Queue := rest })

/-- Calls `Push` once for every element of `es`, in order. -/
def ErrorQueue.pushAll (q : ErrorQueue) (es : List (Option ServerError)) : ErrorQueue :=
  es.foldl ErrorQueue.Push q

/-- Calls `Pop` `n` times in a row; the results in call order, and the final queue. -/
def ErrorQueue.popN : Nat → ErrorQueue → List (Option ServerError) × ErrorQueue
  | 0, q => ([], q)
  | n + 1, q =>
    let r := ErrorQueue.Pop q
    let rs := ErrorQueue.popN n r.2
    (r.1 :: rs.1, rs.2)

/-! ## SpecialUserQueue with its slices in memory

The embedding above keeps, for every key, the elements of its slice.  A Go
slice is a header (backing array, first cell, length, capacity), and `append`
writes into the backing array when the capacity allows.  A mapping set
through the exported field `Queue` may hold, under two keys, slices of one
backing array; what `Push` does then is not visible in the elements alone.
The embedding below keeps the headers and the backing arrays. -/

/-- A Go slice header: the backing array (its index in the memory), the cell
of the array the slice starts at, the length, and the capacity (the cells
from the start to the end of the backing array). -/
structure Slice where
  arr : Nat
  off : Nat
  len : Nat
  cap : Nat
  deriving DecidableEq, Repr

/-- The nil slice: length and capacity `0`. -/
def Slice.nil : Slice :=
  { arr := 0, off := 0, len := 0, cap := 0 }

/-- The elements of a slice: `len` cells of its backing array from `off`. -/
def Slice.elems {User : Type} (mem : List (List User)) (s : Slice) : List User :=
  ((mem.getD s.arr []).drop s.off).take s.len

/-- A slice lies within its backing array: `len ≤ cap`, and the `cap` cells
from `off` are cells of the array. -/
def Slice.Fits {User : Type} (mem : List (List User)) (s : Slice) : Prop :=
  s.len ≤ s.cap ∧ s.off + s.cap ≤ (mem.getD s.arr []).length

/-- Go: `append(s, x)`.  With `len(s) < cap(s)` the element is written into
the cell after the last one of `s`, in the backing array of `s`, and the
result is `s` one longer.  Otherwise a new backing array is allocated, with
the elements of `s`, then `x`, then zero values up to the new capacity.  The
new capacity is the choice of the runtime (`growth`, from the old capacity and
the length needed) and never less than the length needed. -/
def Slice.append {User : Type} (zero : User) (growth : Nat → Nat → Nat)
    (mem : List (List User)) (s : Slice) (x : User) : List (List User) × Slice :=
  if s.len < s.cap then
    (mem.set s.arr ((mem.getD s.arr []).set (s.off + s.len) x),
      { s with len := s.len + 1 })
  else
    (mem ++ [s.elems mem ++ [x]
        ++ List.replicate (max (s.len + 1) (growth s.cap (s.len + 1)) - (s.len + 1)) zero],
      { arr := mem.length, off := 0, len := s.len + 1,
        cap := max (s.len + 1) (growth s.cap (s.len + 1)) })

/-- SpecialUserQueue with the memory its slices live in: the backing arrays,
and the map from keys to slice headers (`none` for the nil map). -/
structure SpecialUserQueueMem (User : Type) where
  mem : List (List User)
  Queue : Option (AList (fun _ : String => Slice))

/-- Go: `s, ok := q.Queue[idp]`, the header `some s` when `ok`. -/
def SpecialUserQueueMem.slice {User : Type} (q : SpecialUserQueueMem User) (idp : String) :
    Option Slice :=
  match q.Queue with
  | none => none
  | some m => m.lookup idp

/-- The sequence stored at `idp`: the elements of its slice, `none` when the
key has no entry. -/
def SpecialUserQueueMem.entry {User : Type} (q : SpecialUserQueueMem User) (idp : String) :
    Option (List User) :=
  (q.slice idp).map (Slice.elems q.mem)

/-- Go: `q.Queue[idp] = append(q.Queue[idp], user)`; `q.Queue[idp]` is the
nil slice when the key has no entry; the assignment panics when the map is
nil, which is the result `none`. -/
def SpecialUserQueueMem.Push {User : Type} (zero : User) (growth : Nat → Nat → Nat)
    (q : SpecialUserQueueMem User) (idp : String) (user : User) :
    Option (SpecialUserQueueMem User) :=
  match q.Queue with
  | none => none
  | some m =>
    let r := Slice.append zero growth q.mem ((m.lookup idp).getD Slice.nil) user
    some { mem := r.1, Queue := some (m.insert idp r.2) }

/-- Go: if `idp` has an entry, then if `len(q.Queue[idp]) == 0` return
`DefaultUser()`, else `user, q.Queue[idp] = q.Queue[idp][0], q.Queue[idp][1:]`
and return `user`; if `idp` has no entry return `DefaultUser()`.  The element
`s[0]` is the cell `off` of the backing array, and `s[1:]` starts one cell
later with length and capacity one less. -/
def SpecialUserQueueMem.Pop {User : Type} (DefaultUser : User) (zero : User)
    (q : SpecialUserQueueMem User) (idp : String) : User × SpecialUserQueueMem User :=
  match q.Queue with
  | none => (DefaultUser, q)
  | some m =>
    match m.lookup idp with
    | some s =>
      if s.len = 0 then
        (DefaultUser, q)
      else
        ((q.mem.getD s.arr []).getD s.off zero,
          { q with Queue := some (m.insert idp
              { arr := s.arr, off := s.off + 1, len := s.len - 1, cap := s.cap - 1 }) })
    | none => (DefaultUser, q)

/-- The slices stored at `k` and `k1` do not have the same backing array. -/
def SpecialUserQueueMem.Unshared {User : Type} (q : SpecialUserQueueMem User)
    (k k1 : String) : Prop :=
  ∀ s t, q.slice k = some s → q.slice k1 = some t → s.arr ≠ t.arr

/-- The slice stored at `k`, if any, lies within its backing array. -/
def SpecialUserQueueMem.FitsAt {User : Type} (q : SpecialUserQueueMem User)
    (k : String) : Prop :=
  ∀ t, q.slice k = some t → t.Fits q.mem

/-- Every key has a backing array of its own: every stored slice lies within
a backing array of the memory, and the slices stored at two different keys
have different backing arrays. -/
def SpecialUserQueueMem.Owned {User : Type} (q : SpecialUserQueueMem User) : Prop :=
  (∀ k s, q.slice k = some s → s.Fits q.mem ∧ s.arr < q.mem.length)
    ∧ ∀ k k1 s t, k ≠ k1 → q.slice k = some s → q.slice k1 = some t → s.arr ≠ t.arr

/-- The embedding by elements `qa` holds the elements of the slices of `qm`:
both maps are nil or neither is, and every key has the same sequence. -/
def SpecialUserQueueMem.Abstracts {User : Type} (qm : SpecialUserQueueMem User)
    (qa : SpecialUserQueue User) : Prop :=
  (qa.Queue = none ↔ qm.Queue = none) ∧ ∀ k, qa.entry k = qm.entry k

/-! ## Concrete inputs -/

/-- A mapping with users queued for `"a"`, an exhausted `"b"` and no entry
for any other key. -/
def exampleQueue : SpecialUserQueue Nat :=
  { Queue := some (AList.insert "a" [1, 2] (AList.insert "b" [] ∅)) }

/-- A history that exhausts `"a"`, pops the unconfigured `"b"` and leaves a
user queued for `"c"`. -/
def exampleHistory : List (SpecialOp Nat) :=
  [SpecialOp.push "a" 1, SpecialOp.pop "a", SpecialOp.pop "b", SpecialOp.push "c" 2]

/-- A generator that always fails, and returns a string next to its error. -/
def failingNonce : NonceGen String Nat :=
  fun g _ => (("junk", some "entropy exhausted"), g + 1)

/-- A generator that returns a string of the length asked for. -/
def healthyNonce : NonceGen String Nat :=
  fun g n => ((String.mk (List.replicate n 'x'), none), g + 1)

/-- Go: `s := []User{1, 2}` and
`SpecialUserQueue{Queue: map[string][]User{"a": s[:1], "b": s[:2]}}`:
the slices of `"a"` and `"b"` have the same backing array. -/
def sharedQueue : SpecialUserQueueMem Nat :=
  { mem := [[1, 2]],
    Queue := some (AList.insert "a" { arr := 0, off := 0, len := 1, cap := 2 }
      (AList.insert "b" { arr := 0, off := 0, len := 2, cap := 2 } ∅)) }

/-- Go: `s := []User{1, 2}` and
`SpecialUserQueue{Queue: map[string][]User{"a": s[:0], "b": s[:2]}}`. -/
def sharedQueueEmpty : SpecialUserQueueMem Nat :=
  { mem := [[1, 2]],
    Queue := some (AList.insert "a" { arr := 0, off := 0, len := 0, cap := 2 }
      (AList.insert "b" { arr := 0, off := 0, len := 2, cap := 2 } ∅)) }

/-- Go: `SpecialUserQueue{Queue: map[string][]User{"a": s[:1], "b": t}}` with
`s := []User{1, 2}` and `t := []User{5, 6}`, two backing arrays. -/
def unsharedQueue : SpecialUserQueueMem Nat :=
  { mem := [[1, 2], [5, 6]],
    Queue := some (AList.insert "a" { arr := 0, off := 0, len := 1, cap := 2 }
      (AList.insert "b" { arr := 1, off := 0, len := 2, cap := 2 } ∅)) }

/-- A growth of the capacity: twice the length needed. -/
def doubling : Nat → Nat → Nat :=
  fun _ needed => 2 * needed

/-! ## Lemmas on UserQueue -/

theorem userQueue_pushAll_Queue {User : Type} (us : List User) (q : UserQueue User) :
    (q.pushAll us).Queue = q.Queue ++ us := by
  induction us generalizing q with
  | nil => simp [UserQueue.pushAll]
  | cons u us ih =>
    have h := ih (q.Push u)
    simp only [UserQueue.pushAll, List.foldl_cons] at h ⊢
    rw [h]
    simp [UserQueue.Push]

theorem userQueue_Pop_nil {User : Type} (D : User) :
    UserQueue.Pop D { Queue := [] } = (D, { Queue := [] }) := by
  simp [UserQueue.Pop]

theorem userQueue_Pop_cons {User : Type} (D : User) (u : User) (rest : List User) :
    UserQueue.Pop D { Queue := u :: rest } = (u, { Queue := rest }) := by
  simp [UserQueue.Pop]

theorem userQueue_popN_append {User : Type} (D : User) (us rest : List User) :
    UserQueue.popN D us.length { Queue := us ++ rest } = (us, { Queue := rest }) := by
  induction us with
  | nil => simp [UserQueue.popN]
  | cons u us ih =>
    simp only [List.length_cons, UserQueue.popN, List.cons_append, userQueue_Pop_cons, ih]

theorem userQueue_run_served_append {User : Type} (D : User) (ops : List (UserOp User))
    (q : UserQueue User) :
    (UserQueue.run D ops q).served ++ (UserQueue.run D ops q).final.Queue
      = q.Queue ++ (UserQueue.run D ops q).pushed := by
  induction ops generalizing q with
  | nil => simp [UserQueue.run]
  | cons op ops ih =>
    cases op with
    | push user =>
      have h := ih (q.Push user)
      simp only [UserQueue.run]
      rw [h]
      simp [UserQueue.Push]
    | pop =>
      obtain ⟨l⟩ := q
      cases l with
      | nil =>
        have h := ih { Queue := [] }
        simpa [UserQueue.run, userQueue_Pop_nil] using h
      | cons u rest =>
        have h := ih { Queue := rest }
        simp only [UserQueue.run, userQueue_Pop_cons, List.length_cons]
        simpa using h

/-! ## Theorems on UserQueue -/

/-- C1: pushing the users `us` in order onto an empty UserQueue and then
calling Pop `|us|` times returns `us` in the same order and leaves the queue
empty; one further Pop returns `DefaultUser()` with the queue still empty. -/
theorem userQueue_fifo_batch {User : Type} (DefaultUser : User) (us : List User) :
    UserQueue.popN DefaultUser us.length (UserQueue.pushAll { Queue := [] } us)
        = (us, { Queue := [] })
      ∧ UserQueue.Pop DefaultUser
          (UserQueue.popN DefaultUser us.length (UserQueue.pushAll { Queue := [] } us)).2
        = (DefaultUser, { Queue := [] }) := by
  have hq : UserQueue.pushAll { Queue := [] } us = ({ Queue := us ++ [] } : UserQueue User) := by
    have h := userQueue_pushAll_Queue us ({ Queue := [] } : UserQueue User)
    cases hp : UserQueue.pushAll ({ Queue := [] } : UserQueue User) us with
    | mk l =>
      rw [hp] at h
      simp at h
      simp [h]
  rw [hq, userQueue_popN_append]
  exact ⟨rfl, userQueue_Pop_nil DefaultUser⟩

/-- C2: for every sequence of Push and Pop calls on an initially empty
UserQueue, the results of the Pops that found the queue non-empty, followed by
the final queue contents, are the pushed users in push order; so there are no
more such Pops than pushes and their results are the first pushed users in push
order: the n-th such Pop returns the n-th pushed user and no pushed user is
returned by two Pops. -/
theorem userQueue_exactly_once {User : Type} (DefaultUser : User)
    (ops : List (UserOp User)) :
    (UserQueue.run DefaultUser ops { Queue := [] }).served
        ++ (UserQueue.run DefaultUser ops { Queue := [] }).final.Queue
        = (UserQueue.run DefaultUser ops { Queue := [] }).pushed
      ∧ (UserQueue.run DefaultUser ops { Queue := [] }).served.length
        ≤ (UserQueue.run DefaultUser ops { Queue := [] }).pushed.length
      ∧ (UserQueue.run DefaultUser ops { Queue := [] }).served
        = (UserQueue.run DefaultUser ops { Queue := [] }).pushed.take
            (UserQueue.run DefaultUser ops { Queue := [] }).served.length := by
  have h := userQueue_run_served_append DefaultUser ops { Queue := [] }
  simp only [List.nil_append] at h
  refine ⟨h, ?_, ?_⟩
  · rw [← h]; simp
  · rw [← h]; simp

/-! ## Lemmas on SpecialUserQueue -/

theorem specialUserQueue_foldl_eq_filter {User : Type} (q : SpecialUserQueue User)
    (order acc : List String) :
    order.foldl
        (fun returnString idp =>
          if (q.index idp).length = 0 then returnString ++ [idp] else returnString)
        acc
      = acc ++ order.filter (fun idp => decide ((q.index idp).length = 0)) := by
  induction order generalizing acc with
  | nil => simp
  | cons k ks ih =>
    simp only [List.foldl_cons, List.filter_cons]
    by_cases hk : (q.index k).length = 0
    · simp [hk, ih]
    · simp [hk, ih]

theorem specialUserQueue_mem_keys_iff {User : Type} (q : SpecialUserQueue User) (k : String) :
    k ∈ q.keys ↔ (q.entry k).isSome = true := by
  obtain ⟨m⟩ := q
  cases m with
  | none => simp [SpecialUserQueue.keys, SpecialUserQueue.entry]
  | some m =>
    simp only [SpecialUserQueue.keys, SpecialUserQueue.entry]
    rw [AList.lookup_isSome, AList.mem_keys]

theorem specialUserQueue_keys_nodup {User : Type} (q : SpecialUserQueue User) :
    q.keys.Nodup := by
  obtain ⟨m⟩ := q
  cases m with
  | none => simp [SpecialUserQueue.keys]
  | some m => exact m.keys_nodup

theorem specialUserQueue_mem_exhausted_iff {User : Type} (q : SpecialUserQueue User)
    (order : List String) (h : q.IsRangeOrder order) (k : String) :
    k ∈ (q.GetIdpsExhaustedWithUsers order).1 ↔ q.entry k = some [] := by
  simp only [SpecialUserQueue.GetIdpsExhaustedWithUsers, specialUserQueue_foldl_eq_filter,
    List.nil_append, List.mem_filter, decide_eq_true_eq]
  rw [h.mem_iff, specialUserQueue_mem_keys_iff, SpecialUserQueue.index]
  cases q.entry k with
  | none => simp
  | some s => cases s <;> simp

theorem specialUserQueue_exhausted_nodup {User : Type} (q : SpecialUserQueue User)
    (order : List String) (h : q.IsRangeOrder order) :
    (q.GetIdpsExhaustedWithUsers order).1.Nodup := by
  simp only [SpecialUserQueue.GetIdpsExhaustedWithUsers, specialUserQueue_foldl_eq_filter,
    List.nil_append]
  exact (h.nodup_iff.mpr (specialUserQueue_keys_nodup q)).filter _

theorem specialUserQueue_run_invariant {User : Type} (D : User)
    (ops : List (SpecialOp User)) (m : UserMap User) :
    ∃ r m1, SpecialUserQueue.run D ops { Queue := some m } = some r
      ∧ r.final.Queue = some m1
      ∧ ∀ k, (k ∈ m1 ↔ k ∈ m ∨ ∃ u, SpecialOp.push k u ∈ ops)
          ∧ r.servedTo k ++ (m1.lookup k).getD []
              = (m.lookup k).getD [] ++ SpecialOp.pushedTo k ops := by
  induction ops generalizing m with
  | nil =>
    exact ⟨_, m, rfl, rfl, fun k => by simp [SpecialRun.servedTo, SpecialOp.pushedTo]⟩
  | cons op ops ih =>
    cases op with
    | push idp user =>
      obtain ⟨r, m1, hr, hm1, hk⟩ :=
        ih (m.insert idp ((m.lookup idp).getD [] ++ [user]))
      refine ⟨r, m1, ?_, hm1, ?_⟩
      · simpa [SpecialUserQueue.run, SpecialUserQueue.Push, SpecialUserQueue.index,
          SpecialUserQueue.entry] using hr
      · intro k
        obtain ⟨h1, h2⟩ := hk k
        by_cases hki : k = idp
        · subst hki
          constructor
          · rw [h1]; simp
          · rw [h2]; simp [AList.lookup_insert, SpecialOp.pushedTo]
        · constructor
          · rw [h1]; simp [AList.mem_insert, hki]
          · rw [h2, AList.lookup_insert_ne hki]
            simp [SpecialOp.pushedTo, Ne.symm hki]
    | pop idp =>
      cases hl : m.lookup idp with
      | none =>
        obtain ⟨r, m1, hr, hm1, hk⟩ := ih m
        refine ⟨r, m1, ?_, hm1, ?_⟩
        · simp [SpecialUserQueue.run, SpecialUserQueue.Pop, SpecialUserQueue.index,
            SpecialUserQueue.entry, hl, hr]
        · intro k
          obtain ⟨h1, h2⟩ := hk k
          exact ⟨by rw [h1]; simp, by rw [h2]; simp [SpecialOp.pushedTo]⟩
      | some s =>
        cases s with
        | nil =>
          obtain ⟨r, m1, hr, hm1, hk⟩ := ih m
          refine ⟨r, m1, ?_, hm1, ?_⟩
          · simp [SpecialUserQueue.run, SpecialUserQueue.Pop, SpecialUserQueue.index,
              SpecialUserQueue.entry, hl, hr]
          · intro k
            obtain ⟨h1, h2⟩ := hk k
            exact ⟨by rw [h1]; simp, by rw [h2]; simp [SpecialOp.pushedTo]⟩
        | cons u rest =>
          obtain ⟨r, m1, hr, hm1, hk⟩ := ih (m.insert idp rest)
          refine ⟨{ r with served := (idp, u) :: r.served }, m1, ?_, hm1, ?_⟩
          · simp [SpecialUserQueue.run, SpecialUserQueue.Pop, SpecialUserQueue.index,
              SpecialUserQueue.entry, hl, hr]
          · intro k
            obtain ⟨h1, h2⟩ := hk k
            have hmem : idp ∈ m := by
              rw [← AList.lookup_isSome, hl]; rfl
            by_cases hki : k = idp
            · subst hki
              constructor
              · rw [h1]; simp [AList.mem_insert, hmem]
              · have h3 : r.servedTo k ++ (m1.lookup k).getD []
                    = rest ++ SpecialOp.pushedTo k ops := by
                  simpa [AList.lookup_insert] using h2
                simp [SpecialRun.servedTo, hl, SpecialOp.pushedTo] at h3 ⊢
                exact h3
            · constructor
              · rw [h1]; simp [AList.mem_insert, hki]
              · rw [AList.lookup_insert_ne hki] at h2
                simp [SpecialRun.servedTo, SpecialOp.pushedTo, Ne.symm hki] at h2 ⊢
                exact h2

/-! ## Theorems on SpecialUserQueue -/

/-- C3: the three results of SpecialUserQueue.Pop, for every mapping (the
nil map included) and key `idp`.  (a) `idp` has no entry: Pop returns
`DefaultUser()` and the mapping is unchanged; (b) `idp` maps to the empty
sequence: Pop returns `DefaultUser()` and the mapping is unchanged; (c) `idp`
maps to `u :: rest`: Pop returns `u` and afterwards `idp` maps to `rest`, the
entry being kept also when `rest` is empty. -/
theorem specialUserQueue_Pop_three_way {User : Type} (DefaultUser : User)
    (q : SpecialUserQueue User) (idp : String) :
    (q.entry idp = none → SpecialUserQueue.Pop DefaultUser q idp = (DefaultUser, q))
      ∧ (q.entry idp = some [] → SpecialUserQueue.Pop DefaultUser q idp = (DefaultUser, q))
      ∧ (∀ u rest, q.entry idp = some (u :: rest) →
        (SpecialUserQueue.Pop DefaultUser q idp).1 = u
          ∧ (SpecialUserQueue.Pop DefaultUser q idp).2.entry idp = some rest) := by
  obtain ⟨m⟩ := q
  cases m with
  | none => simp [SpecialUserQueue.Pop, SpecialUserQueue.entry]
  | some m =>
    refine ⟨?_, ?_, ?_⟩
    · intro h
      simp only [SpecialUserQueue.entry] at h
      simp [SpecialUserQueue.Pop, h]
    · intro h
      simp only [SpecialUserQueue.entry] at h
      simp [SpecialUserQueue.Pop, SpecialUserQueue.index, SpecialUserQueue.entry, h]
    · intro u rest h
      simp only [SpecialUserQueue.entry] at h
      simp [SpecialUserQueue.Pop, SpecialUserQueue.index, SpecialUserQueue.entry, h]

/-- C4: for every mapping and every order in which `range` visits its keys,
a key is in the result of GetIdpsExhaustedWithUsers if and only if it has an
entry and that entry is the empty sequence; no key occurs twice in the result;
and the call leaves the mapping unchanged. -/
theorem specialUserQueue_GetIdpsExhaustedWithUsers_spec {User : Type}
    (q : SpecialUserQueue User) (order : List String) (h : q.IsRangeOrder order) :
    (∀ k, k ∈ (q.GetIdpsExhaustedWithUsers order).1 ↔ q.entry k = some [])
      ∧ (q.GetIdpsExhaustedWithUsers order).1.Nodup
      ∧ (q.GetIdpsExhaustedWithUsers order).2 = q :=
  ⟨specialUserQueue_mem_exhausted_iff q order h, specialUserQueue_exhausted_nodup q order h, rfl⟩

/-- C5: for every history of Push and Pop calls on a SpecialUserQueue whose
mapping starts empty, the run completes; a key has an entry iff some
Push(k, _) occurred; a key is in the result of GetIdpsExhaustedWithUsers
(whatever the order of the visit) iff some Push(k, _) occurred and the users
removed by the Pop(k) calls are all the users pushed to `k`; so a key never
pushed to is never in that result; and after Push("a", u), Pop("a") the result
is exactly `["a"]`. -/
theorem specialUserQueue_exhaustion_classification {User : Type} (DefaultUser : User)
    (ops : List (SpecialOp User)) :
    ∃ r, SpecialUserQueue.run DefaultUser ops { Queue := some ∅ } = some r
      ∧ (∀ k, (r.final.entry k).isSome = true ↔ ∃ u, SpecialOp.push k u ∈ ops)
      ∧ (∀ order, r.final.IsRangeOrder order → ∀ k,
          k ∈ (r.final.GetIdpsExhaustedWithUsers order).1
            ↔ (∃ u, SpecialOp.push k u ∈ ops)
                ∧ r.servedTo k = SpecialOp.pushedTo k ops)
      ∧ (∀ order, r.final.IsRangeOrder order → ∀ k,
          (∀ u, SpecialOp.push k u ∉ ops) →
            k ∉ (r.final.GetIdpsExhaustedWithUsers order).1)
      ∧ (∀ u, ∃ r2,
          SpecialUserQueue.run DefaultUser [SpecialOp.push "a" u, SpecialOp.pop "a"]
              { Queue := some ∅ } = some r2
            ∧ ∀ order, r2.final.IsRangeOrder order →
                (r2.final.GetIdpsExhaustedWithUsers order).1 = ["a"]) := by
  obtain ⟨r, m1, hr, hm1, hk⟩ := specialUserQueue_run_invariant DefaultUser ops ∅
  have hentry : ∀ k, r.final.entry k = m1.lookup k := by
    intro k
    simp [SpecialUserQueue.entry, hm1]
  have hsome : ∀ k, (r.final.entry k).isSome = true ↔ ∃ u, SpecialOp.push k u ∈ ops := by
    intro k
    rw [hentry, AList.lookup_isSome, (hk k).1]
    simp
  have hex : ∀ order, r.final.IsRangeOrder order → ∀ k,
      k ∈ (r.final.GetIdpsExhaustedWithUsers order).1
        ↔ (∃ u, SpecialOp.push k u ∈ ops) ∧ r.servedTo k = SpecialOp.pushedTo k ops := by
    intro order ho k
    rw [specialUserQueue_mem_exhausted_iff _ order ho k, ← hsome k, hentry]
    have h2 := (hk k).2
    simp only [AList.lookup_empty, Option.getD_none, List.nil_append] at h2
    cases hl : m1.lookup k with
    | none => simp
    | some s =>
      rw [hl] at h2
      simp only [Option.getD_some] at h2
      simp only [Option.some.injEq, Option.isSome_some, true_and]
      constructor
      · intro hs
        rw [← h2, hs, List.append_nil]
      · intro hs
        rw [hs] at h2
        exact List.append_right_eq_self.mp h2
  refine ⟨r, hr, hsome, hex, ?_, ?_⟩
  · intro order ho k hno hmem
    obtain ⟨⟨u, hu⟩, _⟩ := (hex order ho k).mp hmem
    exact hno u hu
  · intro u
    have hPop : SpecialUserQueue.Pop DefaultUser
        { Queue := some (AList.insert "a" [u] (∅ : UserMap User)) } "a"
          = (u, { Queue := some (AList.insert "a" [] (AList.insert "a" [u] ∅)) }) := by
      simp [SpecialUserQueue.Pop, SpecialUserQueue.index, SpecialUserQueue.entry,
        AList.lookup_insert, -AList.insert_empty]
    refine ⟨{ final := { Queue := some (AList.insert "a" [] (AList.insert "a" [u] ∅)) },
              served := [("a", u)] }, ?_, ?_⟩
    · simp [SpecialUserQueue.run, SpecialUserQueue.Push, SpecialUserQueue.index,
        SpecialUserQueue.entry, hPop, AList.lookup_insert, -AList.insert_empty]
    · intro order ho
      have hkeys : order = ["a"] := by
        have : order.Perm ["a"] := by
          simpa [SpecialUserQueue.IsRangeOrder, SpecialUserQueue.keys, AList.keys_insert]
            using ho
        exact List.perm_singleton.mp this
      subst hkeys
      simp [SpecialUserQueue.GetIdpsExhaustedWithUsers, SpecialUserQueue.index,
        SpecialUserQueue.entry, AList.lookup_insert, -AList.insert_empty]

/-- C10: on an initialised mapping `m`, Push(idp, u) completes and afterwards
`idp` has an entry; if `idp` had no entry its sequence is now `[u]`, and if
`idp` mapped to `s` (possibly empty) it now maps to `s ++ [u]`. -/
theorem specialUserQueue_Push_appends_or_creates {User : Type} (m : UserMap User)
    (idp : String) (u : User) :
    ∃ m1 : UserMap User,
      SpecialUserQueue.Push { Queue := some m } idp u = some { Queue := some m1 }
        ∧ idp ∈ m1
        ∧ (m.lookup idp = none → m1.lookup idp = some [u])
        ∧ (∀ s, m.lookup idp = some s → m1.lookup idp = some (s ++ [u])) := by
  refine ⟨m.insert idp ((m.lookup idp).getD [] ++ [u]), rfl, ?_, ?_, ?_⟩
  · simp [AList.mem_insert]
  · intro h
    simp [AList.lookup_insert, h]
  · intro s h
    simp [AList.lookup_insert, h]

/-! ## SpecialUserQueue: nil map, per-key view, independence of keys -/

theorem specialUserQueue_Pop_fst {User : Type} (D : User) (q : SpecialUserQueue User)
    (k : String) :
    (SpecialUserQueue.Pop D q k).1 = (UserQueue.Pop D { Queue := q.index k }).1 := by
  obtain ⟨m⟩ := q
  cases m with
  | none => simp [SpecialUserQueue.Pop, SpecialUserQueue.index, SpecialUserQueue.entry,
      UserQueue.Pop]
  | some m =>
    cases h : m.lookup k with
    | none => simp [SpecialUserQueue.Pop, SpecialUserQueue.index, SpecialUserQueue.entry,
        UserQueue.Pop, h]
    | some s =>
      cases s <;> simp [SpecialUserQueue.Pop, SpecialUserQueue.index, SpecialUserQueue.entry,
        UserQueue.Pop, h]

theorem specialUserQueue_Pop_index {User : Type} (D : User) (q : SpecialUserQueue User)
    (k : String) :
    (SpecialUserQueue.Pop D q k).2.index k = (UserQueue.Pop D { Queue := q.index k }).2.Queue := by
  obtain ⟨m⟩ := q
  cases m with
  | none => simp [SpecialUserQueue.Pop, SpecialUserQueue.index, SpecialUserQueue.entry,
      UserQueue.Pop]
  | some m =>
    cases h : m.lookup k with
    | none => simp [SpecialUserQueue.Pop, SpecialUserQueue.index, SpecialUserQueue.entry,
        UserQueue.Pop, h]
    | some s =>
      cases s <;> simp [SpecialUserQueue.Pop, SpecialUserQueue.index, SpecialUserQueue.entry,
        UserQueue.Pop, h]

/-- C11: on the zero value of SpecialUserQueue, whose map is nil, Push does
not complete: the assignment to an entry of the nil map panics, for every key
and user.  The other methods complete on the same value (Pop returns
`DefaultUser()`, GetIdpsExhaustedWithUsers returns the empty list), and so
does Push on the zero value of UserQueue. -/
theorem specialUserQueue_Push_nil_map {User : Type} (DefaultUser : User) (idp : String)
    (u : User) :
    SpecialUserQueue.Push ({ Queue := none } : SpecialUserQueue User) idp u = none
      ∧ SpecialUserQueue.Pop DefaultUser { Queue := none } idp
          = (DefaultUser, { Queue := none })
      ∧ (SpecialUserQueue.GetIdpsExhaustedWithUsers
          ({ Queue := none } : SpecialUserQueue User) []).1 = []
      ∧ UserQueue.Push { Queue := [] } u = { Queue := [u] } :=
  ⟨rfl, rfl, rfl, rfl⟩

/-- C12: with the view of a mapping at `k` being the sequence stored at `k`,
or the empty sequence when `k` has no entry (the value of `q.Queue[k]`):
SpecialUserQueue.Pop(k) returns the user that UserQueue.Pop returns on the
view, and the view afterwards is the UserQueue afterwards (on every mapping,
the nil map included); SpecialUserQueue.Push(k, u) on an initialised mapping
completes, and the view afterwards is the UserQueue after Push(u) on the
view. -/
theorem specialUserQueue_refines_userQueue {User : Type} (DefaultUser : User)
    (q : SpecialUserQueue User) (m : UserMap User) (k : String) (u : User) :
    (SpecialUserQueue.Pop DefaultUser q k).1
        = (UserQueue.Pop DefaultUser { Queue := q.index k }).1
      ∧ (SpecialUserQueue.Pop DefaultUser q k).2.index k
        = (UserQueue.Pop DefaultUser { Queue := q.index k }).2.Queue
      ∧ ∃ q1, SpecialUserQueue.Push { Queue := some m } k u = some q1
          ∧ q1.index k
            = (UserQueue.Push
                { Queue := SpecialUserQueue.index { Queue := some m } k } u).Queue := by
  refine ⟨specialUserQueue_Pop_fst DefaultUser q k, specialUserQueue_Pop_index DefaultUser q k,
    _, rfl, ?_⟩
  simp [SpecialUserQueue.index, SpecialUserQueue.entry, UserQueue.Push, AList.lookup_insert]

/-! ## SpecialUserQueue in memory: independence of keys -/

theorem specialUserQueueMem_Pop_frame {User : Type} (D zero : User)
    (q : SpecialUserQueueMem User) (k k1 : String) (h : k1 ≠ k) :
    (SpecialUserQueueMem.Pop D zero q k).2.mem = q.mem
      ∧ (SpecialUserQueueMem.Pop D zero q k).2.slice k1 = q.slice k1 := by
  obtain ⟨mem, m⟩ := q
  cases m with
  | none => simp [SpecialUserQueueMem.Pop]
  | some m =>
    cases hl : m.lookup k with
    | none => simp [SpecialUserQueueMem.Pop, hl]
    | some s =>
      by_cases hs : s.len = 0
      · simp [SpecialUserQueueMem.Pop, hl, hs]
      · simp [SpecialUserQueueMem.Pop, SpecialUserQueueMem.slice, hl, hs,
          AList.lookup_insert_ne h]

theorem specialUserQueueMem_Pop_fst {User : Type} (D zero : User)
    (q : SpecialUserQueueMem User) (k : String) :
    (SpecialUserQueueMem.Pop D zero q k).1
      = match q.slice k with
        | some s => if s.len = 0 then D else (q.mem.getD s.arr []).getD s.off zero
        | none => D := by
  obtain ⟨mem, m⟩ := q
  cases m with
  | none => simp [SpecialUserQueueMem.Pop, SpecialUserQueueMem.slice]
  | some m =>
    cases hl : m.lookup k with
    | none => simp [SpecialUserQueueMem.Pop, SpecialUserQueueMem.slice, hl]
    | some s =>
      by_cases hs : s.len = 0
      · simp [SpecialUserQueueMem.Pop, SpecialUserQueueMem.slice, hl, hs]
      · simp [SpecialUserQueueMem.Pop, SpecialUserQueueMem.slice, hl, hs]

theorem slice_append_frame {User : Type} (zero : User) (growth : Nat → Nat → Nat)
    (mem : List (List User)) (s t : Slice) (x : User) (ht : t.Fits mem)
    (hne : s.len < s.cap → s.arr ≠ t.arr) :
    t.len = 0 ∨ (s.append zero growth mem x).1.getD t.arr [] = mem.getD t.arr [] := by
  unfold Slice.append
  split_ifs with hc
  · right
    simp [List.getD_eq_getElem?_getD, List.getElem?_set_ne (hne hc)]
  · by_cases hlt : t.arr < mem.length
    · right
      simp [List.getD_eq_getElem?_getD, List.getElem?_append_left hlt]
    · left
      have hnil : mem.getD t.arr [] = [] := by
        simp [List.getD_eq_getElem?_getD, List.getElem?_eq_none (not_lt.mp hlt)]
      unfold Slice.Fits at ht
      rw [hnil] at ht
      simp at ht
      omega

theorem specialUserQueueMem_frame {User : Type} (D zero : User)
    (q q1 : SpecialUserQueueMem User) (k1 : String)
    (hs : q1.slice k1 = q.slice k1)
    (hm : ∀ t, q.slice k1 = some t → t.len = 0 ∨ q1.mem.getD t.arr [] = q.mem.getD t.arr []) :
    q1.entry k1 = q.entry k1
      ∧ (SpecialUserQueueMem.Pop D zero q1 k1).1 = (SpecialUserQueueMem.Pop D zero q k1).1 := by
  rw [specialUserQueueMem_Pop_fst, specialUserQueueMem_Pop_fst, SpecialUserQueueMem.entry,
    SpecialUserQueueMem.entry, hs]
  cases hl : q.slice k1 with
  | none => simp
  | some t =>
    rcases hm t hl with h0 | harr
    · simp [Slice.elems, h0]
    · by_cases h0 : t.len = 0
      · simp [Slice.elems, h0]
      · refine ⟨?_, ?_⟩
        · show some (Slice.elems q1.mem t) = some (Slice.elems q.mem t)
          simp only [Slice.elems, harr]
        · simp only [harr]

/-- C13, as amended: for keys `k1` different from `k`.  Pop(k) changes
neither whether `k1` has an entry nor the sequence stored at `k1`, and a later
Pop(k1) returns the user it would have returned without it: on every value,
the nil map included, whether or not slices share backing arrays.  Push(k, u)
on an initialised mapping completes and does the same, when the slice stored
at `k1` lies within its backing array (as every Go slice does) and does not
have the backing array of the slice stored at `k`. -/
theorem specialUserQueue_keys_independent_unshared {User : Type} (DefaultUser zero : User)
    (growth : Nat → Nat → Nat) (q : SpecialUserQueueMem User) (mem : List (List User))
    (m : AList (fun _ : String => Slice)) (k k1 : String) (u : User)
    (h : k1 ≠ k)
    (hfit : SpecialUserQueueMem.FitsAt { mem := mem, Queue := some m } k1)
    (hun : SpecialUserQueueMem.Unshared { mem := mem, Queue := some m } k k1) :
    ((SpecialUserQueueMem.Pop DefaultUser zero q k).2.entry k1 = q.entry k1
        ∧ (SpecialUserQueueMem.Pop DefaultUser zero
            (SpecialUserQueueMem.Pop DefaultUser zero q k).2 k1).1
          = (SpecialUserQueueMem.Pop DefaultUser zero q k1).1)
      ∧ ∃ q1, SpecialUserQueueMem.Push zero growth { mem := mem, Queue := some m } k u
            = some q1
          ∧ q1.entry k1 = SpecialUserQueueMem.entry { mem := mem, Queue := some m } k1
          ∧ (SpecialUserQueueMem.Pop DefaultUser zero q1 k1).1
            = (SpecialUserQueueMem.Pop DefaultUser zero { mem := mem, Queue := some m } k1).1 := by
  constructor
  · have hp := specialUserQueueMem_Pop_frame DefaultUser zero q k k1 h
    exact specialUserQueueMem_frame DefaultUser zero q _ k1 hp.2
      (fun t _ => Or.inr (by rw [hp.1]))
  · refine ⟨_, rfl, ?_⟩
    apply specialUserQueueMem_frame DefaultUser zero
    · simp [SpecialUserQueueMem.slice, AList.lookup_insert_ne h]
    · intro t ht
      apply slice_append_frame zero growth mem _ t u (hfit t ht)
      intro hc
      cases hl : m.lookup k with
      | none =>
        rw [hl] at hc
        simp [Slice.nil] at hc
      | some s0 =>
        simp only [Option.getD_some]
        exact hun s0 t (by simp [SpecialUserQueueMem.slice, hl]) ht

/-- C13, as stated, fails where two keys hold slices of one backing array.
With `s := []User{1, 2}`, `"a": s[:1]` and `"b": s[:2]`, Push("a", 9)
changes the sequence stored at `"b"` from `[1, 2]` to `[1, 9]`; with
`"a": s[:0]`, Push("a", 9) changes the user returned by a later Pop("b")
from `1` to `9`. -/
theorem specialUserQueue_keys_independent_shared :
    "b" ≠ "a"
      ∧ sharedQueue.entry "b" = some [1, 2]
      ∧ (SpecialUserQueueMem.Push 0 doubling sharedQueue "a" 9).map (fun q => q.entry "b")
          = some (some [1, 9])
      ∧ (SpecialUserQueueMem.Push 0 doubling sharedQueue "a" 9).map (fun q => q.entry "b")
          ≠ some (sharedQueue.entry "b")
      ∧ (SpecialUserQueueMem.Pop 0 0 sharedQueueEmpty "b").1 = 1
      ∧ (SpecialUserQueueMem.Push 0 doubling sharedQueueEmpty "a" 9).map
            (fun q => (SpecialUserQueueMem.Pop 0 0 q "b").1)
          = some 9 := by
  decide

/-! ## SpecialUserQueue in memory: agreement with the embedding by elements -/

theorem list_set_window {α : Type} (a : List α) (off len : Nat) (x : α)
    (h : off + len < a.length) :
    ((a.set (off + len) x).drop off).take (len + 1) = (a.drop off).take len ++ [x] := by
  apply List.ext_getElem?
  intro i
  rw [List.getElem?_take, List.getElem?_drop, List.getElem?_set, List.getElem?_append]
  have hl : ((a.drop off).take len).length = len := by
    simp; omega
  rw [hl, List.getElem?_take, List.getElem?_drop]
  by_cases h1 : i < len
  · have h5 : ¬ off + len = off + i := by omega
    have h2 : i < len + 1 := by omega
    simp [h1, h2, h5]
  · by_cases h2 : i = len
    · subst h2
      simp [h]
    · have h3 : ¬ i < len + 1 := by omega
      simp [h1, h3]
      cases hh : i - len with
      | zero => omega
      | succ n => simp

theorem slice_fits_lt {User : Type} (mem : List (List User)) (s : Slice)
    (hs : s.Fits mem) (hc : 0 < s.cap) : s.arr < mem.length := by
  by_contra hlt
  have hnil : mem.getD s.arr [] = [] := by
    simp [List.getD_eq_getElem?_getD, List.getElem?_eq_none (not_lt.mp hlt)]
  unfold Slice.Fits at hs
  rw [hnil] at hs
  simp at hs
  omega

theorem slice_elems_length {User : Type} (mem : List (List User)) (s : Slice)
    (hs : s.Fits mem) : (s.elems mem).length = s.len := by
  unfold Slice.Fits at hs
  simp only [Slice.elems, List.length_take, List.length_drop]
  omega

theorem slice_append_self {User : Type} (zero : User) (growth : Nat → Nat → Nat)
    (mem : List (List User)) (s : Slice) (x : User) (hs : s.Fits mem) :
    (s.append zero growth mem x).2.elems (s.append zero growth mem x).1
        = s.elems mem ++ [x]
      ∧ (s.append zero growth mem x).2.Fits (s.append zero growth mem x).1
      ∧ (s.append zero growth mem x).2.arr < (s.append zero growth mem x).1.length := by
  have hlen := slice_elems_length mem s hs
  unfold Slice.append
  split_ifs with hc
  · have harr : s.arr < mem.length := slice_fits_lt mem s hs (by omega)
    have hget : (mem.set s.arr ((mem.getD s.arr []).set (s.off + s.len) x)).getD s.arr []
        = (mem.getD s.arr []).set (s.off + s.len) x := by
      simp [List.getD_eq_getElem?_getD, List.getElem?_set_self harr]
    unfold Slice.Fits at hs
    refine ⟨?_, ?_, ?_⟩
    · simp only [Slice.elems, hget]
      exact list_set_window _ _ _ _ (by omega)
    · simp only [Slice.Fits, hget, List.length_set]
      omega
    · simpa using harr
  · refine ⟨?_, ?_, ?_⟩
    · simp only [Slice.elems, List.getD_eq_getElem?_getD, List.getElem?_concat_length,
        Option.getD_some, List.drop_zero]
      rw [List.append_assoc, List.take_append_eq_append_take]
      simp [Slice.elems, List.getD_eq_getElem?_getD] at hlen
      simp [hlen]
    · simp only [Slice.Fits, List.getD_eq_getElem?_getD, List.getElem?_concat_length,
        Option.getD_some, List.length_append, List.length_replicate, List.length_singleton,
        hlen]
      omega
    · simp

theorem slice_append_other {User : Type} (zero : User) (growth : Nat → Nat → Nat)
    (mem : List (List User)) (s t : Slice) (x : User) (ht : t.arr < mem.length)
    (hne : s.len < s.cap → s.arr ≠ t.arr) :
    (s.append zero growth mem x).1.getD t.arr [] = mem.getD t.arr []
      ∧ t.arr < (s.append zero growth mem x).1.length
      ∧ (s.append zero growth mem x).2.arr ≠ t.arr := by
  unfold Slice.append
  split_ifs with hc
  · refine ⟨?_, by simpa using ht, hne hc⟩
    simp [List.getD_eq_getElem?_getD, List.getElem?_set_ne (hne hc)]
  · refine ⟨?_, by simp; omega, by simp; omega⟩
    simp [List.getD_eq_getElem?_getD, List.getElem?_append_left ht]

theorem list_window_cons {α : Type} (a : List α) (off len : Nat) (zero : α)
    (h : off < a.length) (hl : len ≠ 0) :
    (a.drop off).take len = a.getD off zero :: (a.drop (off + 1)).take (len - 1) := by
  obtain ⟨n, rfl⟩ := Nat.exists_eq_succ_of_ne_zero hl
  rw [List.drop_eq_getElem_cons h, Nat.succ_eq_add_one, List.take_succ_cons]
  simp [List.getD_eq_getElem?_getD, List.getElem?_eq_getElem h]

theorem specialUserQueueMem_Push_owned {User : Type} (zero : User)
    (growth : Nat → Nat → Nat) (mem : List (List User))
    (m : AList (fun _ : String => Slice)) (k : String) (u : User)
    (ho : SpecialUserQueueMem.Owned ({ mem := mem, Queue := some m } : SpecialUserQueueMem User)) :
    ∃ q1, SpecialUserQueueMem.Push zero growth { mem := mem, Queue := some m } k u = some q1
      ∧ q1.Owned
      ∧ q1.Queue ≠ none
      ∧ q1.entry k
          = some ((SpecialUserQueueMem.entry { mem := mem, Queue := some m } k).getD [] ++ [u])
      ∧ ∀ k1, k1 ≠ k →
          q1.entry k1 = SpecialUserQueueMem.entry { mem := mem, Queue := some m } k1 := by
  obtain ⟨hfit, hdist⟩ := ho
  simp only [SpecialUserQueueMem.slice] at hfit hdist
  have hs : ((m.lookup k).getD Slice.nil).Fits mem := by
    cases hl : m.lookup k with
    | none => simp [Slice.Fits, Slice.nil]
    | some s0 => exact (hfit k s0 hl).1
  have hne : ∀ j t, j ≠ k → m.lookup j = some t →
      ((m.lookup k).getD Slice.nil).len < ((m.lookup k).getD Slice.nil).cap →
        ((m.lookup k).getD Slice.nil).arr ≠ t.arr := by
    intro j t hj ht hc
    cases hl : m.lookup k with
    | none =>
      rw [hl] at hc
      simp [Slice.nil] at hc
    | some s0 =>
      simp only [Option.getD_some]
      exact hdist k j s0 t (Ne.symm hj) hl ht
  have hself := slice_append_self zero growth mem _ u hs
  have hoth := fun j t (hj : j ≠ k) (ht : m.lookup j = some t) =>
    slice_append_other zero growth mem ((m.lookup k).getD Slice.nil) t u (hfit j t ht).2
      (hne j t hj ht)
  have hnil : ((m.lookup k).map (Slice.elems mem)).getD []
      = Slice.elems mem ((m.lookup k).getD Slice.nil) := by
    cases m.lookup k with
    | none => simp [Slice.elems, Slice.nil]
    | some s0 => simp
  obtain ⟨r, hr⟩ : ∃ r, r = Slice.append zero growth mem ((m.lookup k).getD Slice.nil) u :=
    ⟨_, rfl⟩
  rw [← hr] at hself
  simp only [← hr] at hoth
  refine ⟨{ mem := r.1, Queue := some (m.insert k r.2) }, ?_, ⟨?_, ?_⟩, by simp, ?_, ?_⟩
  · rw [hr]
    rfl
  · intro j sl hsl
    simp only [SpecialUserQueueMem.slice] at hsl
    by_cases hj : j = k
    · subst hj
      rw [AList.lookup_insert] at hsl
      cases hsl
      exact ⟨hself.2.1, hself.2.2⟩
    · rw [AList.lookup_insert_ne hj] at hsl
      obtain ⟨h1, h2, _⟩ := hoth j sl hj hsl
      refine ⟨?_, h2⟩
      show sl.len ≤ sl.cap ∧ sl.off + sl.cap ≤ (r.1.getD sl.arr []).length
      rw [h1]
      exact (hfit j sl hsl).1
  · intro j j1 sl tl hjj hsl htl
    simp only [SpecialUserQueueMem.slice] at hsl htl
    by_cases hj : j = k
    · subst hj
      rw [AList.lookup_insert] at hsl
      cases hsl
      rw [AList.lookup_insert_ne (Ne.symm hjj)] at htl
      exact (hoth j1 tl (Ne.symm hjj) htl).2.2
    · rw [AList.lookup_insert_ne hj] at hsl
      by_cases hj1 : j1 = k
      · subst hj1
        rw [AList.lookup_insert] at htl
        cases htl
        exact Ne.symm (hoth j sl hj hsl).2.2
      · rw [AList.lookup_insert_ne hj1] at htl
        exact hdist j j1 sl tl hjj hsl htl
  · simp only [SpecialUserQueueMem.entry, SpecialUserQueueMem.slice, AList.lookup_insert, hnil]
    show some (Slice.elems r.1 r.2) = _
    rw [hself.1]
  · intro k1 hk1
    simp only [SpecialUserQueueMem.entry, SpecialUserQueueMem.slice,
      AList.lookup_insert_ne hk1]
    cases hl : m.lookup k1 with
    | none => rfl
    | some t =>
      show some (Slice.elems r.1 t) = some (Slice.elems mem t)
      simp only [Slice.elems, (hoth k1 t hk1 hl).1]

theorem specialUserQueueMem_Pop_owned {User : Type} (D zero : User)
    (q : SpecialUserQueueMem User) (k : String) (ho : q.Owned) :
    (SpecialUserQueueMem.Pop D zero q k).2.Owned
      ∧ ((SpecialUserQueueMem.Pop D zero q k).2.Queue = none ↔ q.Queue = none)
      ∧ (SpecialUserQueueMem.Pop D zero q k).1 = ((q.entry k).getD []).headD D
      ∧ (SpecialUserQueueMem.Pop D zero q k).2.entry k = (q.entry k).map List.tail
      ∧ ∀ k1, k1 ≠ k → (SpecialUserQueueMem.Pop D zero q k).2.entry k1 = q.entry k1 := by
  have hother : ∀ k1, k1 ≠ k → (SpecialUserQueueMem.Pop D zero q k).2.entry k1 = q.entry k1 := by
    intro k1 hk1
    have hp := specialUserQueueMem_Pop_frame D zero q k k1 hk1
    exact (specialUserQueueMem_frame D zero q _ k1 hp.2 (fun t _ => Or.inr (by rw [hp.1]))).1
  refine ⟨?_, ?_, ?_, ?_, hother⟩
  all_goals obtain ⟨mem, m⟩ := q
  all_goals cases m with
    | none => first
      | exact ho
      | simp [SpecialUserQueueMem.Pop, SpecialUserQueueMem.entry, SpecialUserQueueMem.slice]
    | some m => ?_
  all_goals cases hl : m.lookup k with
    | none => first
      | (simp only [SpecialUserQueueMem.Pop, hl]; exact ho)
      | simp [SpecialUserQueueMem.Pop, SpecialUserQueueMem.entry, SpecialUserQueueMem.slice, hl]
    | some s => ?_
  all_goals by_cases hs : s.len = 0
  · simpa [SpecialUserQueueMem.Pop, hl, hs] using ho
  · obtain ⟨hfit, hdist⟩ := ho
    simp only [SpecialUserQueueMem.slice] at hfit hdist
    have hsf := hfit k s hl
    simp only [SpecialUserQueueMem.Pop, hl, hs, if_false]
    constructor
    · intro j sl hsl
      simp only [SpecialUserQueueMem.slice] at hsl
      by_cases hj : j = k
      · subst hj
        rw [AList.lookup_insert] at hsl
        cases hsl
        refine ⟨?_, hsf.2⟩
        have h1 := hsf.1
        unfold Slice.Fits at h1 ⊢
        simp only
        omega
      · rw [AList.lookup_insert_ne hj] at hsl
        exact hfit j sl hsl
    · intro j j1 sl tl hjj hsl htl
      simp only [SpecialUserQueueMem.slice] at hsl htl
      by_cases hj : j = k
      · subst hj
        rw [AList.lookup_insert] at hsl
        cases hsl
        rw [AList.lookup_insert_ne (Ne.symm hjj)] at htl
        exact hdist j j1 s tl hjj hl htl
      · rw [AList.lookup_insert_ne hj] at hsl
        by_cases hj1 : j1 = k
        · subst hj1
          rw [AList.lookup_insert] at htl
          cases htl
          exact hdist j j1 sl s hjj hsl hl
        · rw [AList.lookup_insert_ne hj1] at htl
          exact hdist j j1 sl tl hjj hsl htl
  · simp [SpecialUserQueueMem.Pop, hl, hs]
  · simp [SpecialUserQueueMem.Pop, hl, hs]
  · simp [SpecialUserQueueMem.Pop, SpecialUserQueueMem.entry, SpecialUserQueueMem.slice, hl, hs,
      Slice.elems]
  · have hsf : s.len ≤ s.cap ∧ s.off + s.cap ≤ (mem.getD s.arr []).length := (ho.1 k s hl).1
    have hw := list_window_cons (mem.getD s.arr []) s.off s.len zero (by omega) hs
    simp only [SpecialUserQueueMem.Pop, SpecialUserQueueMem.entry, SpecialUserQueueMem.slice,
      hl, hs, if_false]
    show _ = (Slice.elems mem s).headD D
    simp only [Slice.elems, hw, List.headD_cons]
  · simp [SpecialUserQueueMem.Pop, SpecialUserQueueMem.entry, SpecialUserQueueMem.slice, hl, hs,
      Slice.elems]
  · have hsf : s.len ≤ s.cap ∧ s.off + s.cap ≤ (mem.getD s.arr []).length := (ho.1 k s hl).1
    have hw := list_window_cons (mem.getD s.arr []) s.off s.len zero (by omega) hs
    simp only [SpecialUserQueueMem.Pop, SpecialUserQueueMem.entry, SpecialUserQueueMem.slice,
      hl, hs, if_false, AList.lookup_insert]
    show some (Slice.elems mem ⟨s.arr, s.off + 1, s.len - 1, s.cap - 1⟩)
      = some (Slice.elems mem s).tail
    simp only [Slice.elems, hw, List.tail_cons]

theorem specialUserQueue_Pop_entries {User : Type} (D : User) (qa : SpecialUserQueue User)
    (k : String) :
    ((SpecialUserQueue.Pop D qa k).2.Queue = none ↔ qa.Queue = none)
      ∧ (SpecialUserQueue.Pop D qa k).1 = ((qa.entry k).getD []).headD D
      ∧ (SpecialUserQueue.Pop D qa k).2.entry k = (qa.entry k).map List.tail
      ∧ ∀ k1, k1 ≠ k → (SpecialUserQueue.Pop D qa k).2.entry k1 = qa.entry k1 := by
  obtain ⟨m⟩ := qa
  cases m with
  | none => simp [SpecialUserQueue.Pop, SpecialUserQueue.entry]
  | some m =>
    cases hl : m.lookup k with
    | none => simp [SpecialUserQueue.Pop, SpecialUserQueue.entry, hl]
    | some l =>
      cases l with
      | nil => simp [SpecialUserQueue.Pop, SpecialUserQueue.entry, hl]
      | cons x rest =>
        refine ⟨by simp [SpecialUserQueue.Pop, hl],
          by simp [SpecialUserQueue.Pop, SpecialUserQueue.entry, hl],
          by simp [SpecialUserQueue.Pop, SpecialUserQueue.entry, hl, AList.lookup_insert], ?_⟩
        intro k1 hk1
        simp [SpecialUserQueue.Pop, SpecialUserQueue.entry, hl, AList.lookup_insert_ne hk1]

theorem specialUserQueue_Push_entries {User : Type} (ma : UserMap User) (k : String)
    (u : User) :
    ∃ qa1, SpecialUserQueue.Push { Queue := some ma } k u = some qa1
      ∧ qa1.Queue ≠ none
      ∧ qa1.entry k = some ((SpecialUserQueue.entry { Queue := some ma } k).getD [] ++ [u])
      ∧ ∀ k1, k1 ≠ k → qa1.entry k1 = SpecialUserQueue.entry { Queue := some ma } k1 := by
  refine ⟨_, rfl, by simp, ?_, ?_⟩
  · simp [SpecialUserQueue.entry, SpecialUserQueue.index, AList.lookup_insert]
  · intro k1 hk1
    simp [SpecialUserQueue.entry, AList.lookup_insert_ne hk1]

/-- On a mapping built from the empty map, every key has a backing array of
its own, and the embedding by elements holds the elements of its slices. -/
theorem specialUserQueueMem_empty {User : Type} (mem : List (List User)) :
    SpecialUserQueueMem.Owned ({ mem := mem, Queue := some ∅ } : SpecialUserQueueMem User)
      ∧ SpecialUserQueueMem.Abstracts ({ mem := mem, Queue := some ∅ } : SpecialUserQueueMem User)
          { Queue := some ∅ } := by
  refine ⟨⟨?_, ?_⟩, by simp, ?_⟩
  · intro k s hs
    simp [SpecialUserQueueMem.slice] at hs
  · intro k k1 s t _ hs
    simp [SpecialUserQueueMem.slice] at hs
  · intro k
    simp [SpecialUserQueue.entry, SpecialUserQueueMem.entry, SpecialUserQueueMem.slice]

/-- Where every key has a backing array of its own, Pop and Push on the
slices in memory do what Pop and Push of the embedding by elements do: Pop
returns the same user, Push completes on the one exactly when it completes on
the other, and afterwards every key again has a backing array of its own and
the embedding by elements again holds the elements of the slices. -/
theorem specialUserQueueMem_simulation {User : Type} (D zero : User)
    (growth : Nat → Nat → Nat) (qm : SpecialUserQueueMem User) (qa : SpecialUserQueue User)
    (k : String) (u : User) (ho : qm.Owned) (ha : qm.Abstracts qa) :
    ((SpecialUserQueueMem.Pop D zero qm k).1 = (SpecialUserQueue.Pop D qa k).1
        ∧ (SpecialUserQueueMem.Pop D zero qm k).2.Owned
        ∧ (SpecialUserQueueMem.Pop D zero qm k).2.Abstracts (SpecialUserQueue.Pop D qa k).2)
      ∧ ((SpecialUserQueueMem.Push zero growth qm k u = none
            ∧ SpecialUserQueue.Push qa k u = none)
          ∨ ∃ qm1 qa1, SpecialUserQueueMem.Push zero growth qm k u = some qm1
              ∧ SpecialUserQueue.Push qa k u = some qa1
              ∧ qm1.Owned ∧ qm1.Abstracts qa1) := by
  obtain ⟨hnone, hent⟩ := ha
  constructor
  · obtain ⟨h1, h2, h3, h4, h5⟩ := specialUserQueueMem_Pop_owned D zero qm k ho
    obtain ⟨g2, g3, g4, g5⟩ := specialUserQueue_Pop_entries D qa k
    refine ⟨by rw [h3, g3, hent], h1, by rw [g2, h2, hnone], ?_⟩
    intro j
    by_cases hj : j = k
    · subst hj
      rw [g4, h4, hent]
    · rw [g5 j hj, h5 j hj, hent]
  · obtain ⟨mem, m⟩ := qm
    obtain ⟨ma⟩ := qa
    cases m with
    | none =>
      left
      have hq : ma = none := hnone.mpr rfl
      subst hq
      exact ⟨rfl, rfl⟩
    | some m =>
      right
      cases ma with
      | none => simp at hnone
      | some ma =>
        obtain ⟨qm1, e1, o1, n1, p1, r1⟩ :=
          specialUserQueueMem_Push_owned zero growth mem m k u ho
        obtain ⟨qa1, e2, n2, p2, r2⟩ := specialUserQueue_Push_entries ma k u
        refine ⟨qm1, qa1, e1, e2, o1, by simp [n1, n2], ?_⟩
        intro j
        by_cases hj : j = k
        · subst hj
          rw [p1, p2, hent]
        · rw [r1 j hj, r2 j hj, hent]

/-- Where every key has a backing array of its own, the slice of a key lies
within its backing array and two different keys do not share one. -/
theorem specialUserQueueMem_Owned_unshared {User : Type} (q : SpecialUserQueueMem User)
    (k k1 : String) (h : k1 ≠ k) (ho : q.Owned) :
    q.FitsAt k1 ∧ q.Unshared k k1 :=
  ⟨fun t ht => (ho.1 k1 t ht).1, fun s t hs ht => ho.2 k k1 s t (Ne.symm h) hs ht⟩

/-! ## Lemmas on CodeQueue -/

theorem codeQueue_pushAll_Queue (cs : List String) (q : CodeQueue) :
    (q.pushAll cs).Queue = q.Queue ++ cs := by
  induction cs generalizing q with
  | nil => simp [CodeQueue.pushAll]
  | cons c cs ih =>
    have h := ih (q.Push c)
    simp only [CodeQueue.pushAll, List.foldl_cons] at h ⊢
    rw [h]
    simp [CodeQueue.Push]

theorem codeQueue_popN_append {ε σ : Type} (randomNonce : NonceGen ε σ) (g : σ)
    (cs rest : List String) :
    CodeQueue.popN randomNonce cs.length { Queue := cs ++ rest } g
      = (cs.map (fun c => (c, none)), { Queue := rest }, g) := by
  induction cs with
  | nil => simp [CodeQueue.popN]
  | cons c cs ih =>
    simp only [List.length_cons, CodeQueue.popN, List.cons_append, CodeQueue.Pop, ih,
      List.map_cons]

/-! ## Theorems on CodeQueue -/

/-- C6: for every CodeQueue state and every behaviour of the nonce generator,
Pop returns an error if and only if the queue is empty and `randomNonce(24)`
returns an error; in that case the error is the generator's error, the
returned code is the empty string, and the queue is unchanged and empty. -/
theorem codeQueue_Pop_error_iff {ε σ : Type} (randomNonce : NonceGen ε σ) (q : CodeQueue)
    (g : σ) :
    ((CodeQueue.Pop randomNonce q g).1.2 ≠ none
        ↔ q.Queue = [] ∧ (randomNonce g 24).1.2 ≠ none)
      ∧ ((CodeQueue.Pop randomNonce q g).1.2 ≠ none →
          (CodeQueue.Pop randomNonce q g).1.2 = (randomNonce g 24).1.2
            ∧ (CodeQueue.Pop randomNonce q g).1.1 = ""
            ∧ (CodeQueue.Pop randomNonce q g).2.1 = q
            ∧ q.Queue = []) := by
  obtain ⟨l⟩ := q
  cases l with
  | cons c rest => simp [CodeQueue.Pop]
  | nil =>
    cases h : (randomNonce g 24).1.2 with
    | none => simp [CodeQueue.Pop, h]
    | some err => simp [CodeQueue.Pop, h]

/-- C7: for every list of codes `cs`, every nonce generator and every state of
it, pushing `cs` in order onto an empty CodeQueue and then calling Pop `|cs|`
times returns the elements of `cs` in the same order, each with no error, and
leaves the queue empty; the generator is left in the state it was in. -/
theorem codeQueue_fifo_batch {ε σ : Type} (randomNonce : NonceGen ε σ) (g : σ)
    (cs : List String) :
    CodeQueue.popN randomNonce cs.length (CodeQueue.pushAll { Queue := [] } cs) g
      = (cs.map (fun c => (c, none)), { Queue := [] }, g) := by
  have hq : CodeQueue.pushAll { Queue := [] } cs = ({ Queue := cs ++ [] } : CodeQueue) := by
    have h := codeQueue_pushAll_Queue cs { Queue := [] }
    cases hp : CodeQueue.pushAll { Queue := [] } cs with
    | mk l =>
      rw [hp] at h
      simp at h
      simp [h]
  rw [hq, codeQueue_popN_append]

/-- C8: on an empty CodeQueue, when the call `randomNonce(24)` returns no
error, Pop returns the string of that call with no error and leaves the queue
empty; so with a healthy generator Pop returns, with no error, a code of
length 24. -/
theorem codeQueue_Pop_fallback {ε σ : Type} (randomNonce : NonceGen ε σ) (g : σ) :
    ((randomNonce g 24).1.2 = none →
        CodeQueue.Pop randomNonce { Queue := [] } g
          = (((randomNonce g 24).1.1, none), { Queue := [] }, (randomNonce g 24).2))
      ∧ (NonceGen.Healthy randomNonce →
          (CodeQueue.Pop randomNonce { Queue := [] } g).1.2 = none
            ∧ (CodeQueue.Pop randomNonce { Queue := [] } g).1.1.length = 24
            ∧ (CodeQueue.Pop randomNonce { Queue := [] } g).2.1 = { Queue := [] }) := by
  have key : (randomNonce g 24).1.2 = none →
      CodeQueue.Pop randomNonce { Queue := [] } g
        = (((randomNonce g 24).1.1, none), { Queue := [] }, (randomNonce g 24).2) := by
    intro h
    simp [CodeQueue.Pop, h]
  refine ⟨key, ?_⟩
  intro hh
  rw [key (hh g 24).1]
  exact ⟨rfl, (hh g 24).2, rfl⟩

/-! ## Lemmas on ErrorQueue -/

theorem errorQueue_pushAll_Queue (es : List (Option ServerError)) (q : ErrorQueue) :
    (q.pushAll es).Queue = q.Queue ++ es := by
  induction es generalizing q with
  | nil => simp [ErrorQueue.pushAll]
  | cons e es ih =>
    have h := ih (q.Push e)
    simp only [ErrorQueue.pushAll, List.foldl_cons] at h ⊢
    rw [h]
    simp [ErrorQueue.Push]

theorem errorQueue_popN_append (es rest : List (Option ServerError)) :
    ErrorQueue.popN es.length { Queue := es ++ rest } = (es, { Queue := rest }) := by
  induction es with
  | nil => simp [ErrorQueue.popN]
  | cons e es ih =>
    simp only [List.length_cons, ErrorQueue.popN, List.cons_append, ErrorQueue.Pop, ih]

/-! ## Theorems on ErrorQueue -/

/-- C9: for every list `es` of ServerError fixtures, pushing them in order
onto an empty ErrorQueue and then calling Pop `|es|` times returns them in the
same order and leaves the queue empty; a Pop on an empty ErrorQueue returns
nil, which is not a ServerError with zero-valued fields, and leaves the queue
empty. -/
theorem errorQueue_fifo_batch (es : List ServerError) :
    ErrorQueue.popN es.length (ErrorQueue.pushAll { Queue := [] } (es.map some))
        = (es.map some, { Queue := [] })
      ∧ ErrorQueue.Pop { Queue := [] } = (none, { Queue := [] })
      ∧ (ErrorQueue.Pop { Queue := [] }).1
          ≠ some { Code := 0, Error := "", Description := "" } := by
  have hq : ErrorQueue.pushAll { Queue := [] } (es.map some)
      = ({ Queue := es.map some ++ [] } : ErrorQueue) := by
    have h := errorQueue_pushAll_Queue (es.map some) { Queue := [] }
    cases hp : ErrorQueue.pushAll { Queue := [] } (es.map some) with
    | mk l =>
      rw [hp] at h
      simp at h
      simp [h]
  refine ⟨?_, rfl, ?_⟩
  · have h := errorQueue_popN_append (es.map some) []
    rw [List.length_map] at h
    rw [hq, h]
  · simp [ErrorQueue.Pop]

/-! ## Length of the queues, nil errors, order of Push and Pop -/

/-- C14: for UserQueue, CodeQueue (with every nonce generator) and
ErrorQueue, and every state of length `n`: Push yields a queue of length
`n + 1` whose first `n` elements are the old contents; Pop yields the old
contents without the head, of length `n - 1` (which is `0` when `n = 0`, the
empty queue staying empty); Pop never increases the length and Push never
decreases it. -/
theorem queues_length_step {User ε σ : Type} (DefaultUser : User) (uq : UserQueue User)
    (user : User) (randomNonce : NonceGen ε σ) (g : σ) (cq : CodeQueue) (code : String)
    (eq : ErrorQueue) (se : Option ServerError) :
    ((uq.Push user).Queue.length = uq.Queue.length + 1
        ∧ (uq.Push user).Queue.take uq.Queue.length = uq.Queue
        ∧ uq.Queue.length ≤ (uq.Push user).Queue.length
        ∧ (UserQueue.Pop DefaultUser uq).2.Queue = uq.Queue.tail
        ∧ (UserQueue.Pop DefaultUser uq).2.Queue.length = uq.Queue.length - 1
        ∧ (UserQueue.Pop DefaultUser uq).2.Queue.length ≤ uq.Queue.length)
      ∧ ((cq.Push code).Queue.length = cq.Queue.length + 1
        ∧ (cq.Push code).Queue.take cq.Queue.length = cq.Queue
        ∧ cq.Queue.length ≤ (cq.Push code).Queue.length
        ∧ (CodeQueue.Pop randomNonce cq g).2.1.Queue = cq.Queue.tail
        ∧ (CodeQueue.Pop randomNonce cq g).2.1.Queue.length = cq.Queue.length - 1
        ∧ (CodeQueue.Pop randomNonce cq g).2.1.Queue.length ≤ cq.Queue.length)
      ∧ ((eq.Push se).Queue.length = eq.Queue.length + 1
        ∧ (eq.Push se).Queue.take eq.Queue.length = eq.Queue
        ∧ eq.Queue.length ≤ (eq.Push se).Queue.length
        ∧ (ErrorQueue.Pop eq).2.Queue = eq.Queue.tail
        ∧ (ErrorQueue.Pop eq).2.Queue.length = eq.Queue.length - 1
        ∧ (ErrorQueue.Pop eq).2.Queue.length ≤ eq.Queue.length) := by
  obtain ⟨ul⟩ := uq
  obtain ⟨cl⟩ := cq
  obtain ⟨el⟩ := eq
  refine ⟨?_, ?_, ?_⟩
  · cases ul <;> simp [UserQueue.Push, UserQueue.Pop]
  · cases cl with
    | nil =>
      cases h : (randomNonce g 24).1.2 <;> simp [CodeQueue.Push, CodeQueue.Pop, h]
    | cons c rest => simp [CodeQueue.Push, CodeQueue.Pop]
  · cases el <;> simp [ErrorQueue.Push, ErrorQueue.Pop]

/-- C16: on an ErrorQueue in which no stored element is nil, Pop returns nil
if and only if the queue is empty; without that condition, the queue obtained
by pushing nil onto the empty queue is not empty, and Pop on it returns nil
while removing an element. -/
theorem errorQueue_nil_iff_empty (q : ErrorQueue) (h : ∀ e ∈ q.Queue, e ≠ none) :
    ((ErrorQueue.Pop q).1 = none ↔ q.Queue = [])
      ∧ (ErrorQueue.Push { Queue := [] } none).Queue ≠ []
      ∧ (ErrorQueue.Pop (ErrorQueue.Push { Queue := [] } none)).1 = none
      ∧ (ErrorQueue.Pop (ErrorQueue.Push { Queue := [] } none)).2.Queue.length
          < (ErrorQueue.Push { Queue := [] } none).Queue.length := by
  refine ⟨?_, by simp [ErrorQueue.Push], by simp [ErrorQueue.Push, ErrorQueue.Pop],
    by simp [ErrorQueue.Push, ErrorQueue.Pop]⟩
  obtain ⟨l⟩ := q
  cases l with
  | nil => simp [ErrorQueue.Pop]
  | cons e rest =>
    have he : e ≠ none := h e (by simp)
    simpa [ErrorQueue.Pop] using he

/-- C17: on a non-empty UserQueue, Push(u) then Pop returns the same user and
ends in the same queue as Pop then Push(u).  On the empty queue, Push(u) then
Pop returns `u` and leaves the queue empty, whereas Pop returns
`DefaultUser()` and Push(u) after it leaves the queue holding `[u]`: the two
final queues differ. -/
theorem userQueue_Push_Pop_commute {User : Type} (DefaultUser : User) (q : UserQueue User)
    (u : User) (h : q.Queue ≠ []) :
    ((UserQueue.Pop DefaultUser (q.Push u)).1 = (UserQueue.Pop DefaultUser q).1
        ∧ (UserQueue.Pop DefaultUser (q.Push u)).2 = (UserQueue.Pop DefaultUser q).2.Push u)
      ∧ UserQueue.Pop DefaultUser (UserQueue.Push { Queue := [] } u) = (u, { Queue := [] })
      ∧ UserQueue.Pop DefaultUser { Queue := [] } = (DefaultUser, { Queue := [] })
      ∧ (UserQueue.Pop DefaultUser { Queue := [] }).2.Push u = { Queue := [u] }
      ∧ (UserQueue.Pop DefaultUser (UserQueue.Push { Queue := [] } u)).2
          ≠ (UserQueue.Pop DefaultUser { Queue := [] }).2.Push u := by
  refine ⟨?_, by simp [UserQueue.Push, UserQueue.Pop], by simp [UserQueue.Pop],
    by simp [UserQueue.Push, UserQueue.Pop], by simp [UserQueue.Push, UserQueue.Pop]⟩
  obtain ⟨l⟩ := q
  cases l with
  | nil => exact absurd rfl h
  | cons v rest => simp [UserQueue.Push, UserQueue.Pop]

/-! ## The theorems at concrete inputs -/

/-- The three cases of SpecialUserQueue.Pop on `exampleQueue`: the key `"c"` has no
entry, `"b"` maps to the empty sequence, `"a"` maps to `[1, 2]`. -/
theorem specialUserQueue_Pop_three_way_witness :
    SpecialUserQueue.Pop (0 : Nat) exampleQueue "c" = (0, exampleQueue)
      ∧ SpecialUserQueue.Pop (0 : Nat) exampleQueue "b" = (0, exampleQueue)
      ∧ (SpecialUserQueue.Pop (0 : Nat) exampleQueue "a").1 = 1
      ∧ (SpecialUserQueue.Pop (0 : Nat) exampleQueue "a").2.entry "a" = some [2] :=
  ⟨(specialUserQueue_Pop_three_way 0 exampleQueue "c").1 (by decide),
    (specialUserQueue_Pop_three_way 0 exampleQueue "b").2.1 (by decide),
    (specialUserQueue_Pop_three_way 0 exampleQueue "a").2.2 1 [2] (by decide)⟩

/-- The exhausted keys of `exampleQueue`, its keys being visited as `"b"`, `"a"`. -/
theorem specialUserQueue_GetIdpsExhaustedWithUsers_spec_witness :
    exampleQueue.IsRangeOrder ["b", "a"]
      ∧ (∀ k, k ∈ (exampleQueue.GetIdpsExhaustedWithUsers ["b", "a"]).1
          ↔ exampleQueue.entry k = some [])
      ∧ (exampleQueue.GetIdpsExhaustedWithUsers ["b", "a"]).1.Nodup
      ∧ (exampleQueue.GetIdpsExhaustedWithUsers ["b", "a"]).2 = exampleQueue :=
  have h : exampleQueue.IsRangeOrder ["b", "a"] := by
    unfold SpecialUserQueue.IsRangeOrder
    decide
  ⟨h, specialUserQueue_GetIdpsExhaustedWithUsers_spec exampleQueue ["b", "a"] h⟩

/-- After `exampleHistory` on the empty mapping, the keys being visited as `"c"`,
`"a"`: the drained `"a"` is reported, the never pushed `"b"` and the still
queued `"c"` are not. -/
theorem specialUserQueue_exhaustion_classification_witness :
    ∃ r, SpecialUserQueue.run (0 : Nat) exampleHistory { Queue := some ∅ } = some r
      ∧ r.final.IsRangeOrder ["c", "a"]
      ∧ "a" ∈ (r.final.GetIdpsExhaustedWithUsers ["c", "a"]).1
      ∧ "b" ∉ (r.final.GetIdpsExhaustedWithUsers ["c", "a"]).1
      ∧ "c" ∉ (r.final.GetIdpsExhaustedWithUsers ["c", "a"]).1 := by
  obtain ⟨r, hr, _, h2, h3, _⟩ :=
    specialUserQueue_exhaustion_classification (0 : Nat) exampleHistory
  have hrun : SpecialUserQueue.run (0 : Nat) exampleHistory { Queue := some ∅ }
      = some { final := { Queue := some (AList.insert "c" [2]
                  (AList.insert "a" [] (AList.insert "a" [1] ∅))) },
               served := [("a", 1)] } := by
    rfl
  have hreq := Option.some.inj (hr.symm.trans hrun)
  subst hreq
  have ho : SpecialUserQueue.IsRangeOrder
      ({ Queue := some (AList.insert "c" [2]
          (AList.insert "a" [] (AList.insert "a" [1] ∅))) } : SpecialUserQueue Nat)
      ["c", "a"] := by
    unfold SpecialUserQueue.IsRangeOrder
    decide
  refine ⟨_, hrun, ho, ?_, ?_, ?_⟩
  · exact (h2 _ ho "a").mpr ⟨⟨1, by decide⟩, by decide⟩
  · exact h3 _ ho "b" (fun u hu => by simp [exampleHistory] at hu)
  · intro hc
    have := ((h2 _ ho "c").mp hc).2
    revert this
    decide

/-- Push on `exampleQueue`: onto the sequence `[1, 2]` of `"a"`, onto the empty
sequence of `"b"`, and for the key `"c"` that has no entry. -/
theorem specialUserQueue_Push_appends_or_creates_witness :
    (∃ m1 : UserMap Nat,
        SpecialUserQueue.Push exampleQueue "a" 3 = some { Queue := some m1 }
          ∧ m1.lookup "a" = some [1, 2, 3])
      ∧ (∃ m1 : UserMap Nat,
        SpecialUserQueue.Push exampleQueue "b" 3 = some { Queue := some m1 }
          ∧ m1.lookup "b" = some [3])
      ∧ (∃ m1 : UserMap Nat,
        SpecialUserQueue.Push exampleQueue "c" 3 = some { Queue := some m1 }
          ∧ m1.lookup "c" = some [3]) := by
  refine ⟨?_, ?_, ?_⟩
  · obtain ⟨m1, h1, _, _, h4⟩ := specialUserQueue_Push_appends_or_creates
      (AList.insert "a" [1, 2] (AList.insert "b" [] ∅)) "a" (3 : Nat)
    exact ⟨m1, h1, h4 [1, 2] (by decide)⟩
  · obtain ⟨m1, h1, _, _, h4⟩ := specialUserQueue_Push_appends_or_creates
      (AList.insert "a" [1, 2] (AList.insert "b" [] ∅)) "b" (3 : Nat)
    exact ⟨m1, h1, h4 [] (by decide)⟩
  · obtain ⟨m1, h1, _, h3, _⟩ := specialUserQueue_Push_appends_or_creates
      (AList.insert "a" [1, 2] (AList.insert "b" [] ∅)) "c" (3 : Nat)
    exact ⟨m1, h1, h3 (by decide)⟩

/-- Pop with a generator that always fails: on the empty queue the error of the
generator and the empty string, on a queue holding a code no error. -/
theorem codeQueue_Pop_error_iff_witness :
    (CodeQueue.Pop failingNonce { Queue := [] } 0).1.2 = some "entropy exhausted"
      ∧ (CodeQueue.Pop failingNonce { Queue := [] } 0).1.1 = ""
      ∧ (CodeQueue.Pop failingNonce { Queue := [] } 0).2.1 = { Queue := [] }
      ∧ (CodeQueue.Pop failingNonce { Queue := ["c1"] } 0).1.2 = none :=
  have h := codeQueue_Pop_error_iff failingNonce { Queue := [] } 0
  have hne : (CodeQueue.Pop failingNonce { Queue := [] } 0).1.2 ≠ none :=
    h.1.mpr ⟨rfl, by decide⟩
  have h1 := codeQueue_Pop_error_iff failingNonce { Queue := ["c1"] } 0
  ⟨(h.2 hne).1, (h.2 hne).2.1, (h.2 hne).2.2.1,
    Classical.not_not.mp (fun hc => by simpa using (h1.1.mp hc).1)⟩

/-- Pop on the empty queue with `healthyNonce`: no error and a code of length 24. -/
theorem codeQueue_Pop_fallback_witness :
    NonceGen.Healthy healthyNonce
      ∧ (CodeQueue.Pop healthyNonce { Queue := [] } 0).1.2 = none
      ∧ (CodeQueue.Pop healthyNonce { Queue := [] } 0).1.1.length = 24
      ∧ (CodeQueue.Pop healthyNonce { Queue := [] } 0).2.1 = { Queue := [] } :=
  have hh : NonceGen.Healthy healthyNonce := fun g n =>
    ⟨rfl, by simp [healthyNonce, String.length]⟩
  ⟨hh, (codeQueue_Pop_fallback healthyNonce 0).2 hh⟩

/-- Push("a", 9) and Pop("a") on `unsharedQueue`, where `"a"` and `"b"` have
a backing array each: the sequence `[5, 6]` of `"b"` stays, and a later
Pop("b") returns `5`. -/
theorem specialUserQueue_keys_independent_unshared_witness :
    "b" ≠ "a"
      ∧ SpecialUserQueueMem.FitsAt unsharedQueue "b"
      ∧ SpecialUserQueueMem.Unshared unsharedQueue "a" "b"
      ∧ (SpecialUserQueueMem.Pop 0 0 unsharedQueue "a").2.entry "b" = some [5, 6]
      ∧ (SpecialUserQueueMem.Pop 0 0
          (SpecialUserQueueMem.Pop 0 0 unsharedQueue "a").2 "b").1 = 5
      ∧ ∃ q1, SpecialUserQueueMem.Push 0 doubling unsharedQueue "a" 9 = some q1
          ∧ q1.entry "a" = some [1, 9]
          ∧ q1.entry "b" = some [5, 6]
          ∧ (SpecialUserQueueMem.Pop 0 0 q1 "b").1 = 5 := by
  have hne : "b" ≠ "a" := by decide
  have hb : unsharedQueue.slice "b" = some { arr := 1, off := 0, len := 2, cap := 2 } := by
    decide
  have ha : unsharedQueue.slice "a" = some { arr := 0, off := 0, len := 1, cap := 2 } := by
    decide
  have hfit : SpecialUserQueueMem.FitsAt unsharedQueue "b" := by
    intro t ht
    have ht2 := Option.some.inj (ht.symm.trans hb)
    subst ht2
    unfold Slice.Fits
    decide
  have hun : SpecialUserQueueMem.Unshared unsharedQueue "a" "b" := by
    intro s t hs ht
    have hs2 := Option.some.inj (hs.symm.trans ha)
    have ht2 := Option.some.inj (ht.symm.trans hb)
    subst hs2
    subst ht2
    decide
  have h := specialUserQueue_keys_independent_unshared (0 : Nat) 0 doubling unsharedQueue
    [[1, 2], [5, 6]]
    (AList.insert "a" { arr := 0, off := 0, len := 1, cap := 2 }
      (AList.insert "b" { arr := 1, off := 0, len := 2, cap := 2 } ∅))
    "a" "b" 9 hne hfit hun
  obtain ⟨⟨h1, h2⟩, q1, hq1, h3, h4⟩ := h
  refine ⟨hne, hfit, hun, h1.trans (by decide), h2.trans (by decide), q1, hq1, ?_,
    h3.trans (by decide), h4.trans (by decide)⟩
  have hq : SpecialUserQueueMem.Push 0 doubling unsharedQueue "a" 9
      = some { mem := [[1, 9], [5, 6]],
               Queue := some (AList.insert "a" { arr := 0, off := 0, len := 2, cap := 2 }
                 (AList.insert "a" { arr := 0, off := 0, len := 1, cap := 2 }
                   (AList.insert "b" { arr := 1, off := 0, len := 2, cap := 2 } ∅))) } := by
    rfl
  have hq2 := Option.some.inj (hq1.symm.trans hq)
  subst hq2
  decide

/-- Pop on a queue holding one ServerError returns it, not nil. -/
theorem errorQueue_nil_iff_empty_witness :
    (∀ e ∈ [some ({ Code := 500, Error := "server_error", Description := "boom" }
          : ServerError)], e ≠ none)
      ∧ ((ErrorQueue.Pop
            { Queue := [some { Code := 500, Error := "server_error", Description := "boom" }] }).1
          = none
        ↔ [some ({ Code := 500, Error := "server_error", Description := "boom" }
            : ServerError)] = []) :=
  have h : ∀ e ∈ [some ({ Code := 500, Error := "server_error", Description := "boom" }
      : ServerError)], e ≠ none := by
    intro e he
    simp only [List.mem_singleton] at he
    simp [he]
  ⟨h, (errorQueue_nil_iff_empty
    { Queue := [some { Code := 500, Error := "server_error", Description := "boom" }] } h).1⟩

/-- Push(3) and Pop in either order on the queue `[1, 2]`: Pop returns `1`
and the queue ends as `[2, 3]`. -/
theorem userQueue_Push_Pop_commute_witness :
    ({ Queue := [1, 2] } : UserQueue Nat).Queue ≠ []
      ∧ (UserQueue.Pop (0 : Nat) (UserQueue.Push { Queue := [1, 2] } 3)).1
          = (UserQueue.Pop (0 : Nat) { Queue := [1, 2] }).1
      ∧ (UserQueue.Pop (0 : Nat) (UserQueue.Push { Queue := [1, 2] } 3)).2
          = (UserQueue.Pop (0 : Nat) { Queue := [1, 2] }).2.Push 3
      ∧ (UserQueue.Pop (0 : Nat) (UserQueue.Push { Queue := [1, 2] } 3)).2
          = { Queue := [2, 3] } :=
  have hne : ({ Queue := [1, 2] } : UserQueue Nat).Queue ≠ [] := by decide
  have h := (userQueue_Push_Pop_commute (0 : Nat) { Queue := [1, 2] } 3 hne).1
  ⟨hne, h.1, h.2, h.2.trans (by decide)⟩

end Mockoidc
